import Mathlib

/-!
Shallow embedding of `src/logwork/logwork.py` (a work-session logger).

The log file is modelled as a list of bytes (`List Nat`, each < 256);
decoded text is modelled as `List Char`.  Python functions that can raise
are modelled as `Option`-valued functions, `none` meaning an uncaught
exception.  Wall-clock times are modelled at second granularity.
-/

set_option maxRecDepth 4000

namespace Logwork

/-- Convert a string literal to the character list used by the model. -/
def chars (s : String) : List Char := s.toList

/-- The single-quote character (code 39). -/
def quoteChar : Char := Char.ofNat 39

/-- The terminal escape character (code 27) used by the ANSI color strings. -/
def escChar : Char := Char.ofNat 27

/-- Python `str.strip` default whitespace characters (ASCII part). -/
def isPySpace (c : Char) : Bool :=
  c = ' ' || c = '\t' || c = '\n' || c = '\r' || c = Char.ofNat 11 || c = Char.ofNat 12

/-- Strip leading whitespace, as Python `lstrip()`. -/
def stripLeft (s : List Char) : List Char := s.dropWhile isPySpace

/-- Strip trailing whitespace, as Python `rstrip()`. -/
def stripRight (s : List Char) : List Char := (s.reverse.dropWhile isPySpace).reverse

/-- Python `str.strip()` with no arguments. -/
def strip (s : List Char) : List Char := stripLeft (stripRight s)

/-- Decimal digit test, `\d` of the source's regexes (ASCII digits). -/
def isDigitCh (c : Char) : Bool := 48 ≤ c.toNat && c.toNat ≤ 57

/-- Render the decimal digit `n % 10`. -/
def digitChar (n : Nat) : Char := Char.ofNat (48 + n % 10)

/-- Numeric value of a decimal digit character. -/
def digitVal (c : Char) : Nat := c.toNat - 48

/-- Read a decimal digit string as a number (as `int(...)` does on digits). -/
def readNat (s : List Char) : Nat := s.foldl (fun a c => 10 * a + digitVal c) 0

/-! ## Strict UTF-8 decoding and encoding

`bytes.decode("utf8")` in the source is strict: invalid sequences, overlong
forms, surrogates and code points above U+10FFFF raise `UnicodeDecodeError`
(modelled by `none`). -/

/-- A UTF-8 continuation byte. -/
def contByte (b : Nat) : Bool := 0x80 ≤ b && b < 0xC0

/-- Decode one UTF-8 scalar value from the front of a byte list (strict). -/
def decodeOne : List Nat → Option (Char × List Nat)
  | [] => none
  | b0 :: rest =>
    if b0 < 0x80 then some (Char.ofNat b0, rest)
    else if b0 < 0xC2 then none
    else if b0 < 0xE0 then
      match rest with
      | b1 :: r =>
        if contByte b1 then some (Char.ofNat ((b0 - 0xC0) * 0x40 + (b1 - 0x80)), r) else none
      | [] => none
    else if b0 < 0xF0 then
      match rest with
      | b1 :: b2 :: r =>
        if contByte b1 && contByte b2 && (decide (b0 ≠ 0xE0) || decide (0xA0 ≤ b1))
            && (decide (b0 ≠ 0xED) || decide (b1 < 0xA0)) then
          some (Char.ofNat ((b0 - 0xE0) * 0x1000 + (b1 - 0x80) * 0x40 + (b2 - 0x80)), r)
        else none
      | _ => none
    else if b0 < 0xF5 then
      match rest with
      | b1 :: b2 :: b3 :: r =>
        if contByte b1 && contByte b2 && contByte b3 && (decide (b0 ≠ 0xF0) || decide (0x90 ≤ b1))
            && (decide (b0 ≠ 0xF4) || decide (b1 < 0x90)) then
          some (Char.ofNat
            ((b0 - 0xF0) * 0x40000 + (b1 - 0x80) * 0x1000 + (b2 - 0x80) * 0x40 + (b3 - 0x80)), r)
        else none
      | _ => none
    else none

/-- The decoding loop with an explicit step budget; each step consumes at
least one byte, so a budget of `bs.length` always suffices (the zero-budget
branch is unreachable from `utf8DecodeList`). -/
def utf8DecodeAux : Nat → List Nat → Option (List Char)
  | _, [] => some []
  | 0, _ :: _ => none
  | fuel + 1, b :: bs =>
    match decodeOne (b :: bs) with
    | none => none
    | some (c, r) => (utf8DecodeAux fuel r).map (fun cs => c :: cs)

/-- Decode a byte list as strict UTF-8 text (`bytes.decode("utf8")`). -/
def utf8DecodeList (bs : List Nat) : Option (List Char) :=
  utf8DecodeAux bs.length bs

/-- UTF-8 encoding of one character (total; `Char` is always a valid scalar). -/
def utf8EncodeChar (c : Char) : List Nat :=
  let n := c.toNat
  if n < 0x80 then [n]
  else if n < 0x800 then [0xC0 + n / 0x40, 0x80 + n % 0x40]
  else if n < 0x10000 then [0xE0 + n / 0x1000, 0x80 + n / 0x40 % 0x40, 0x80 + n % 0x40]
  else [0xF0 + n / 0x40000, 0x80 + n / 0x1000 % 0x40, 0x80 + n / 0x40 % 0x40, 0x80 + n % 0x40]

/-- UTF-8 encoding of text, as Python text-mode file writes do. -/
def utf8Encode (cs : List Char) : List Nat := cs.flatMap utf8EncodeChar

/-! ## Timestamps

`datetime` values, `strftime("%Y%m%d-%H%M")` and
`strptime(s, "%Y%m%d-%H%M")` from the source, modelled at second
granularity (microseconds are below the granularity any claim needs). -/

structure DateTime where
  year : Nat
  month : Nat
  day : Nat
  hour : Nat
  minute : Nat
  second : Nat
deriving DecidableEq, Repr

/-- Gregorian leap-year rule used by `datetime`. -/
def isLeap (y : Nat) : Bool := y % 4 = 0 && (y % 100 ≠ 0 || y % 400 = 0)

/-- Length of a month, as `datetime` validates it. -/
def daysInMonth (y m : Nat) : Nat :=
  if m = 2 then (if isLeap y then 29 else 28)
  else if m = 4 || m = 6 || m = 9 || m = 11 then 30 else 31

/-- A value representable as a Python `datetime` (and 4-digit year). -/
def DateTime.Valid (t : DateTime) : Prop :=
  1 ≤ t.year ∧ t.year ≤ 9999 ∧ 1 ≤ t.month ∧ t.month ≤ 12 ∧
    1 ≤ t.day ∧ t.day ≤ daysInMonth t.year t.month ∧
    t.hour ≤ 23 ∧ t.minute ≤ 59 ∧ t.second ≤ 59

instance (t : DateTime) : Decidable t.Valid := by
  unfold DateTime.Valid; infer_instance

/-- Days in the months of `y` strictly before month `m`. -/
def daysBeforeMonth (y m : Nat) : Nat :=
  (List.range (m - 1)).foldl (fun a i => a + daysInMonth y (i + 1)) 0

/-- Seconds since 0001-01-01 00:00:00; datetime subtraction
`(a - b).total_seconds()` is modelled as `dtToSec a - dtToSec b` over `Int`. -/
def dtToSec (t : DateTime) : Nat :=
  let y := t.year - 1
  let days := 365 * y + y / 4 - y / 100 + y / 400 + daysBeforeMonth t.year t.month + (t.day - 1)
  days * 86400 + t.hour * 3600 + t.minute * 60 + t.second

/-- Zero-padded 2-digit decimal rendering (`%m`, `%d`, `%H`, `%M`). -/
def pad2 (n : Nat) : List Char := [digitChar (n / 10), digitChar n]

/-- Zero-padded 4-digit decimal rendering (`%Y`; the model zero-pads years
below 1000, which platform strftime may not, so claims restrict to 4-digit
years via `DateTime.Valid`). -/
def pad4 (n : Nat) : List Char :=
  [digitChar (n / 1000), digitChar (n / 100), digitChar (n / 10), digitChar n]

/-- `datetime.strftime("%Y%m%d-%H%M")`. -/
def fmtTime (t : DateTime) : List Char :=
  pad4 t.year ++ pad2 t.month ++ pad2 t.day ++ ['-'] ++ pad2 t.hour ++ pad2 t.minute

/-- The appended timestamp records only minutes; parsing it back yields the
time truncated to the minute. -/
def truncMinute (t : DateTime) : DateTime := { t with second := 0 }

/-- `datetime.strptime(s, "%Y%m%d-%H%M")` on the 13-character strings the
callers produce (a `TIME_REGEX` match stripped of its trailing space):
fixed-width fields with full calendar validation, `none` for `ValueError`. -/
def parseTime (s : List Char) : Option DateTime :=
  match s with
  | [y1, y2, y3, y4, m1, m2, d1, d2, dash, h1, h2, n1, n2] =>
    if dash = '-' && isDigitCh y1 && isDigitCh y2 && isDigitCh y3 && isDigitCh y4 &&
        isDigitCh m1 && isDigitCh m2 && isDigitCh d1 && isDigitCh d2 &&
        isDigitCh h1 && isDigitCh h2 && isDigitCh n1 && isDigitCh n2 then
      let y := readNat [y1, y2, y3, y4]
      let mo := readNat [m1, m2]
      let d := readNat [d1, d2]
      let h := readNat [h1, h2]
      let mi := readNat [n1, n2]
      if 1 ≤ y && 1 ≤ mo && mo ≤ 12 && 1 ≤ d && d ≤ daysInMonth y mo && h ≤ 23 && mi ≤ 59 then
        some ⟨y, mo, d, h, mi, 0⟩
      else none
    else none
  | _ => none

/-! ## LogStore: line splitting, parsing, backward tail scan -/

/-- `TIME_REGEX = re.compile(r"^\d{8}-\d{4} ")` — `match` against the
start of the line; `true` means the match (of length 14) exists. -/
def timeMatch (s : List Char) : Bool :=
  match s with
  | c1 :: c2 :: c3 :: c4 :: c5 :: c6 :: c7 :: c8 :: dash :: d1 :: d2 :: d3 :: d4 :: sp :: _ =>
    isDigitCh c1 && isDigitCh c2 && isDigitCh c3 && isDigitCh c4 && isDigitCh c5 &&
      isDigitCh c6 && isDigitCh c7 && isDigitCh c8 && dash = '-' && isDigitCh d1 &&
      isDigitCh d2 && isDigitCh d3 && isDigitCh d4 && sp = ' '
  | _ => false

/-- Split bytes into lines as iterating a binary-mode Python file does:
split after every 0x0A byte, terminators kept, trailing fragment kept. -/
def splitBytesAux : List Nat → List Nat → List (List Nat)
  | [], acc => if acc.isEmpty then [] else [acc.reverse]
  | b :: rest, acc =>
    if b = 10 then (acc.reverse ++ [10]) :: splitBytesAux rest []
    else splitBytesAux rest (b :: acc)

def splitBytesLines (bs : List Nat) : List (List Nat) := splitBytesAux bs []

/-- Drop one trailing newline, reflecting how `$` in a Python regex matches
just before a newline ending the string. -/
def dropNl (s : List Char) : List Char := if s.getLast? = some '\n' then s.dropLast else s

/-- `GIT_REGEX = re.compile(r"\[.*]$")` applied with `search`: on the
single-line strings the callers pass, the match (if any) runs from the first
`[` to the `]` ending the line. -/
def gitSearch (line : List Char) : Option (List Char) :=
  let core := dropNl line
  let m := core.dropWhile (fun c => decide (c ≠ '['))
  if core.getLast? = some ']' && !m.isEmpty then some m else none

structure WorkState where
  time : Option DateTime := none
  cwd : Option (List Char) := none
  git_info : Option (List Char) := none
  from_end : Option Nat := none
  has_tags : Option Bool := none
deriving DecidableEq, Repr

/-- The git summary substring of a record line (`""` when `GIT_REGEX` finds
nothing), as extracted by `work_state`. -/
def wsGit (line : List Char) : List Char := (gitSearch line).getD []

/-- The working-directory substring of a record line:
`line[len(time_str) : -len(git_str) - 1].strip()`. -/
def wsCwd (line : List Char) : List Char :=
  strip ((line.take (line.length - (wsGit line).length - 1)).drop 14)

/-- `work_state(line, from_end, has_tags)`; `none` models the
`ValueError` that `strptime` raises on a matching but invalid timestamp. -/
def work_state (line : List Char) (from_end : Nat) (has_tags : Option Bool) :
    Option WorkState :=
  if timeMatch line then
    match parseTime (strip (line.take 14)) with
    | none => none
    | some t =>
      some { time := some t, cwd := some (wsCwd line), git_info := some (wsGit line),
             from_end := some from_end, has_tags := has_tags }
  else some {}

/-- Does the line start with the literal `tags:` prefix? -/
def isTagsLine (s : List Char) : Bool := decide (s.take 5 = chars "tags:")

/-- The backward scan of `last_state`: over reversed lines, skip lines that
fail to decode, note `tags:` lines, stop at the first `TIME_REGEX` match. -/
def scanBack : List (List Nat) → Nat → Bool → Option (List Char × Nat × Bool)
  | [], _, _ => none
  | l :: rest, fe, ht =>
    match utf8DecodeList l with
    | none => scanBack rest (fe + 1) ht
    | some s =>
      let ht2 := ht || isTagsLine s
      if timeMatch s then some (s, fe, ht2) else scanBack rest (fe + 1) ht2

/-- The at-most-10,000-byte tail window: `seek(max(0, length - 10_000))`. -/
def windowBytes (bs : List Nat) : List Nat := bs.drop (bs.length - 10000)

/-- The return dispatch of `last_state`: `work_state(line, from_end,
has_tags=has_tags)` when the scan found a match, `WorkState()` otherwise. -/
def lastStateOf : Option (List Char × Nat × Bool) → Option WorkState
  | some (line, fe, ht) => work_state line fe (some ht)
  | none => some {}

/-- `last_state()` over the log-file bytes; `none` models an uncaught
exception (only possible via `strptime` inside `work_state`). -/
def last_state (bs : List Nat) : Option WorkState :=
  lastStateOf (scanBack (splitBytesLines (windowBytes bs)).reverse 0 false)

/-! ## GitSnapshot: the `git_info()` function

Modelled as a function of the subprocess outputs it consumes: the
`git status` stdout and stderr, the `git remote get-url <name>` stdout (as a
function of the name), and the `git rev-parse --short HEAD` stdout.
`none` models an uncaught exception. -/

structure GitInfo where
  branch : List Char := []
  commit : List Char := []
  origin : List Char := []
  flags : List Char := []
deriving DecidableEq, Repr

/-- `GitInfo.__str__`. -/
def gitInfoStr (g : GitInfo) : List Char :=
  if g.branch.isEmpty then []
  else '[' :: (g.branch ++ g.flags ++ [' '] ++ g.origin ++ [' '] ++ g.commit) ++ [']']

/-- `GitInfo.prompt`. -/
def gitPrompt (g : GitInfo) : List Char :=
  if g.branch.isEmpty then [] else '[' :: (g.branch ++ g.flags) ++ [']']

/-- Does `needle` occur at position `i` of `hay`? -/
def substrAt (needle hay : List Char) (i : Nat) : Bool :=
  decide ((hay.drop i).take needle.length = needle)

/-- Python's `needle in hay` substring test. -/
def isSubstr (needle hay : List Char) : Bool :=
  (List.range (hay.length + 1)).any (substrAt needle hay)

/-- Index of the leftmost occurrence of `needle` in `hay`. -/
def substrPos (needle hay : List Char) : Option Nat :=
  (List.range (hay.length + 1)).find? (substrAt needle hay)

/-- Python `str.splitlines()` (newline-terminated model: `\n` only). -/
def splitlinesAux : List Char → List Char → List (List Char)
  | [], acc => if acc.isEmpty then [] else [acc.reverse]
  | c :: r, acc =>
    if c = '\n' then acc.reverse :: splitlinesAux r [] else splitlinesAux r (c :: acc)

def splitlinesPy (s : List Char) : List (List Char) := splitlinesAux s []

/-- Python `str.split()` with no separator: whitespace runs, empties dropped. -/
def wordsAux : List Char → List Char → List (List Char)
  | [], acc => if acc.isEmpty then [] else [acc.reverse]
  | c :: r, acc =>
    if isPySpace c then (if acc.isEmpty then wordsAux r [] else acc.reverse :: wordsAux r [])
    else wordsAux r (c :: acc)

def words (s : List Char) : List (List Char) := wordsAux s []

/-- Python `str.strip(set)`: remove the given characters from both ends. -/
def stripSet (set s : List Char) : List Char :=
  let l := s.dropWhile (fun c => set.contains c)
  (l.reverse.dropWhile (fun c => set.contains c)).reverse

/-- Index of the last occurrence of a character. -/
def lastIdxOf (c : Char) (s : List Char) : Option Nat :=
  match s.reverse.findIdx? (fun x => decide (x = c)) with
  | some j => some (s.length - 1 - j)
  | none => none

/-- `ORIGIN_REGEX = re.compile(r"Your branch .*'(.+)'")`, `search(...).group(1)`:
after the first `"Your branch "`, with `.*` and `(.+)` both greedy, `group(1)`
is the non-empty span ending at the last quote whose opening quote is the
rightmost quote at least two positions earlier. -/
def originGroup1 (line : List Char) : Option (List Char) :=
  match substrPos (chars "Your branch ") line with
  | none => none
  | some i =>
    let t := line.drop (i + 12)
    match lastIdxOf quoteChar t with
    | none => none
    | some l0 =>
      match lastIdxOf quoteChar (t.take (l0 - 1)) with
      | none => none
      | some q => some ((t.take l0).drop (q + 1))

/-- Remove every (leftmost, non-overlapping) occurrence of `pat`,
Python `str.replace(pat, "")`. -/
def removeAll (pat : List Char) : List Char → List Char
  | [] => []
  | c :: rest =>
    if h : 0 < pat.length ∧ (c :: rest).take pat.length = pat then
      removeAll pat ((c :: rest).drop pat.length)
    else c :: removeAll pat rest
termination_by s => s.length
decreasing_by
  · simp only [List.length_drop, List.length_cons]; omega
  · simp

/-- `HTTP_REGEX.sub("", s)` for `HTTP_REGEX = re.compile(r"https?://")`:
single left-to-right pass removing each scheme occurrence. -/
def httpSub : List Char → List Char
  | [] => []
  | c :: rest =>
    if (c :: rest).take 8 = chars "https://" then httpSub ((c :: rest).drop 8)
    else if (c :: rest).take 7 = chars "http://" then httpSub ((c :: rest).drop 7)
    else c :: httpSub rest
termination_by s => s.length
decreasing_by
  · simp only [List.length_drop, List.length_cons]; omega
  · simp only [List.length_drop, List.length_cons]; omega
  · simp

/-- Split on a character, keeping empty segments (Python `str.split(c)`). -/
def splitOnAux (c : Char) : List Char → List Char → List (List Char)
  | [], acc => [acc.reverse]
  | x :: r, acc =>
    if x = c then acc.reverse :: splitOnAux c r [] else splitOnAux c r (x :: acc)

def splitOnChar (c : Char) (s : List Char) : List (List Char) := splitOnAux c s []

/-- One `/`-delimited segment after `CREDS_REGEX.sub`: `[^/]*@` removes
everything in the segment up to and including its last `@`. -/
def dropCreds (seg : List Char) : List Char :=
  match lastIdxOf '@' seg with
  | none => seg
  | some i => seg.drop (i + 1)

/-- `CREDS_REGEX = re.compile(r"[^/]*@")`, `sub("", s)`: matches cannot cross
`/`, and within a segment the greedy match runs through the last `@`. -/
def credsSub (s : List Char) : List Char :=
  List.intercalate ['/'] ((splitOnChar '/' s).map dropCreds)

/-- `git_info()` as a function of its subprocess outputs.  `none` models the
uncaught `IndexError`/`AttributeError` raised while parsing unexpected
output shapes. -/
def git_info (statusOut statusErr : List Char) (remoteUrl : List Char → List Char)
    (revOut : List Char) : Option GitInfo :=
  let status := statusOut ++ '\n' :: statusErr
  if isSubstr (chars "fatal: ") status then some {}
  else
    let flags :=
      (if isSubstr (chars "modified:") status then ['!'] else []) ++
      (if isSubstr (chars "Untracked files") status then ['?'] else []) ++
      (if isSubstr (chars "Your branch is ahead of") status then ['*'] else []) ++
      (if isSubstr (chars "new file:") status then ['+'] else []) ++
      (if isSubstr (chars "renamed:") status then ['>'] else []) ++
      (if isSubstr (chars "deleted:") status then ['x'] else [])
    let flags := if flags.isEmpty then [] else ' ' :: flags
    let lines := splitlinesPy status
    match (words (lines.headD [])).getLast? with
    | none => none
    | some branch =>
      let originLine := (lines.find? (fun l => decide (l.take 11 = chars "Your branch"))).getD []
      match (if originLine.isEmpty then some [] else originGroup1 originLine) with
      | none => none
      | some origin0 =>
        match (if origin0.isEmpty then some (some [])
               else ((words origin0).getLast?).map
                 (fun w => some ((stripSet (chars "'.") w).takeWhile (fun c => decide (c ≠ '/'))))) with
        | none => none
        | some none => none
        | some (some origin1) =>
          let origin2 :=
            if origin1.isEmpty then origin1
            else
              let u := strip (remoteUrl origin1)
              let u := if isSubstr (chars "http://") u || isSubstr (chars "https://") u then
                credsSub u else u
              let u := removeAll (chars "git@") u
              httpSub u
          some { branch := branch, commit := strip revOut, origin := origin2, flags := flags }

/-! ## The `__main__` update flow (PS1 / prompt mode)

The flow at the bottom of the source: read `last_state`, compute elapsed
seconds only when a previous record exists, decide whether to append, then
print the integer minutes for the prompt.  `err = some nameError` models the
`NameError` on the never-assigned `seconds` variable, `valueError` the
`strptime` failure propagating out of `last_state`. -/

inductive MainErr
  | nameError
  | valueError
deriving DecidableEq, Repr

structure MainOutcome where
  log : List Nat
  appended : Bool
  err : Option MainErr
  shown : Option Int
deriving DecidableEq, Repr

/-- The environment of one invocation: log-file bytes, wall clock,
`git_info()` result, `Path.cwd().resolve()`, and the filesystem's path
resolution used for `Path(last.cwd).resolve()`. -/
structure MainEnv where
  log : List Nat
  now : DateTime
  gitParts : GitInfo
  realpath : List Char
  resolvePath : List Char → List Char

def INTERVAL : Nat := 15

/-- `int((60 * INTERVAL - seconds) // 60 + 1)` — the countdown printed for
the prompt (`//` is floor division). -/
def minutes_remaining (seconds : Int) : Int := ((60 * INTERVAL : Int) - seconds).fdiv 60 + 1

/-- Modelled from the spec: `minutesRemaining = ceil((interval*60 -
elapsedSeconds)/60)`, the integer ceiling of `(interval·60 − s)/60`,
stated for comparison with the code's `minutes_remaining`. -/
def minutesRemainingSpec (seconds : Int) : Int :=
  (((INTERVAL : Int) * 60 - seconds) + 59).fdiv 60

/-- The appended record text:
`strftime("%Y%m%d-%H%M")` + `f" {realpath} {git_parts}\n"`. -/
def appendLine (now : DateTime) (realpath gitStr : List Char) : List Char :=
  fmtTime now ++ ' ' :: realpath ++ ' ' :: gitStr ++ ['\n']

/-- The update flow once `last_state` returned normally.  The `or`-chain
short-circuits, so the unassigned `seconds` is only *read* (NameError) at
the `if seconds >= INTERVAL * 60` inside the append branch; without an
append `seconds` is read again by the final prompt print. -/
def doMainLast (env : MainEnv) (last : WorkState) : MainOutcome :=
  let gitStr := gitInfoStr env.gitParts
  let cond :=
    last.time.isNone ||
      (match last.time with
       | some t => decide (((INTERVAL : Int) * 60) ≤ (dtToSec env.now : Int) - (dtToSec t : Int))
       | none => false) ||
      decide (env.resolvePath (last.cwd.getD []) ≠ env.realpath) ||
      decide (last.git_info ≠ some gitStr)
  if cond then
    let newLog := env.log ++ utf8Encode (appendLine env.now env.realpath gitStr)
    match last.time with
    | none => ⟨newLog, true, some .nameError, none⟩
    | some _ => ⟨newLog, true, none, some (minutes_remaining 1)⟩
  else
    match last.time with
    | some t =>
      ⟨env.log, false, none,
        some (minutes_remaining ((dtToSec env.now : Int) - (dtToSec t : Int)))⟩
    | none => ⟨env.log, false, some .nameError, none⟩

/-- Dispatch on the `last_state()` result (a raised `ValueError` propagates). -/
def doMainOf (env : MainEnv) : Option WorkState → MainOutcome
  | none => ⟨env.log, false, some .valueError, none⟩
  | some last => doMainLast env last

def doMain (env : MainEnv) : MainOutcome := doMainOf env (last_state env.log)

/-- The fall-through branch of `handle_command`: append the command-line
words joined by spaces, plus a newline, to the log (open mode `"a"`). -/
def handle_append (log : List Nat) (args : List (List Char)) : List Nat :=
  log ++ utf8Encode (List.intercalate [' '] args ++ ['\n'])

/-! ## Tag inventory (the reporting loop of `tags()`) -/

/-- `set(line[5:].strip().split())`. -/
def tagTokens (line : List Char) : Finset (List Char) :=
  (words (strip (line.drop 5))).toFinset

/-- The scan over all lines: running known-tags set and last-seen tags set. -/
def tagsFold (lines : List (List Char)) : Finset (List Char) × Finset (List Char) :=
  lines.foldl
    (fun acc line =>
      if isTagsLine line then
        ((if acc.2 ≠ ∅ then acc.1 ∪ acc.2 else acc.1), tagTokens line)
      else acc)
    (∅, ∅)

/-- The report printed by `tags()`: `some (previous, new)` when the new-tag
set `last_tags - tags` is non-empty, `none` when nothing is printed. -/
def tags_report (lines : List (List Char)) : Option (Finset (List Char) × Finset (List Char)) :=
  let p := tagsFold lines
  let newTags := p.2 \ p.1
  if newTags ≠ ∅ then some (p.1, newTags) else none

/-- Modelled from the spec: the union of the tag tokens over a list of
`tags:` lines, used to state which tags were "seen on any earlier tags
line". -/
def unionTagTokens (tls : List (List Char)) : Finset (List Char) :=
  tls.foldl (fun a l => a ∪ tagTokens l) ∅

/-! ## History-by-directory (`lw_history`) -/

def RED : List Char := escChar :: chars "[31m"

def YELLOW : List Char := escChar :: chars "[33m"

def DEFAULT : List Char := escChar :: chars "[0m"

/-- `os.path.dirname` (posix). -/
def dirname (p : List Char) : List Char :=
  let i := match p.reverse.findIdx? (fun c => decide (c = '/')) with
    | some j => p.length - j
    | none => 0
  let head := p.take i
  if !head.isEmpty && head.any (fun c => decide (c ≠ '/')) then
    (head.reverse.dropWhile (fun c => decide (c = '/'))).reverse
  else head

/-- The colored header built for a record line, annotated with
`f" {up_one} LEVEL UP"` when `up_one` is non-zero. -/
def mkHeader (u : Nat) (line : List Char) : List Char :=
  let t := RED ++ chars "# " ++ strip line ++ DEFAULT
  (if u ≠ 0 then strip t ++ YELLOW ++ ' ' :: Nat.toDigits 10 u ++ chars " LEVEL UP" ++ DEFAULT
   else t) ++ ['\n']

/-- One pass of `lw_history` over the file's lines for one target directory.
Returns (printed chunks, `output` flag, final `printing`, final `timestamp`);
`none` models a `strptime` exception from `work_state`. -/
def historyPassAux : List (List Char) → List Char → Nat → Bool → List Char →
    Option (List (List Char) × Bool × Bool × List Char)
  | [], _, _, printing, ts => some ([], false, printing, ts)
  | line :: rest, target, u, printing, ts =>
    match work_state line 0 none with
    | none => none
    | some st =>
      let pr2 := if st.time.isSome then decide (st.cwd = some target) else printing
      if pr2 then
        if st.time.isSome then
          historyPassAux rest target u pr2 (mkHeader u line)
        else
          (historyPassAux rest target u pr2 []).map
            (fun r => ((ts ++ line) :: r.1, true, r.2.2.1, r.2.2.2))
      else
        historyPassAux rest target u pr2 ts

/-- The `for up_one in range(5)` retry loop; `printing` and `timestamp`
persist across passes as in the source, and the directory is replaced by its
`dirname` after each pass without output. -/
def historyLoop (lines : List (List Char)) : List Nat → List Char → Bool → List Char →
    Option (List (List Char))
  | [], _, _, _ => some []
  | u :: us, cwd, pr, ts =>
    match historyPassAux lines cwd u pr ts with
    | none => none
    | some (cs, o, p2, t2) =>
      if o then some cs
      else (historyLoop lines us (dirname cwd) p2 t2).map (fun rest => cs ++ rest)

/-- Split decoded text into lines with terminators kept, as text-mode file
iteration yields them. -/
def splitCharsAux : List Char → List Char → List (List Char)
  | [], acc => if acc.isEmpty then [] else [acc.reverse]
  | c :: r, acc =>
    if c = '\n' then (acc.reverse ++ ['\n']) :: splitCharsAux r []
    else splitCharsAux r (c :: acc)

def splitCharLines (s : List Char) : List (List Char) := splitCharsAux s []

/-- The pass phase of `lw_history` once the text-mode read decoded. -/
def lwHistoryDecoded (cwd : List Char) : Option (List Char) → Option (List (List Char))
  | none => none
  | some cs => historyLoop (splitCharLines cs) [0, 1, 2, 3, 4] cwd false []

/-- Dispatch on the `last_state()` result for `lw_history`. -/
def lwHistoryOf (bs : List Nat) : Option WorkState → Option (List (List Char))
  | none => none
  | some last =>
    match last.time with
    | none => some [chars "No previous work log entry found."]
    | some _ => lwHistoryDecoded (last.cwd.getD []) (utf8DecodeList bs)

/-- `lw_history()` over the log-file bytes: the list of printed chunks
(each chunk one `print` call), `none` for an uncaught exception. -/
def lw_history (bs : List Nat) : Option (List (List Char)) :=
  lwHistoryOf bs (last_state bs)

/-! ## Helper lemmas -/

theorem toNat_ofNat_of_valid {n : Nat} (h : n.isValidChar) : (Char.ofNat n).toNat = n := by
  simp only [Char.ofNat, h, dif_pos]
  rfl

theorem toNat_digitChar (n : Nat) : (digitChar n).toNat = 48 + n % 10 := by
  have h : (48 + n % 10).isValidChar := by
    have : n % 10 < 10 := Nat.mod_lt _ (by norm_num)
    exact Or.inl (by omega)
  simpa [digitChar] using toNat_ofNat_of_valid h

theorem isDigitCh_digitChar (n : Nat) : isDigitCh (digitChar n) = true := by
  have h := toNat_digitChar n
  have : n % 10 < 10 := Nat.mod_lt _ (by norm_num)
  simp [isDigitCh, h]; omega

theorem digitVal_digitChar (n : Nat) : digitVal (digitChar n) = n % 10 := by
  simp [digitVal, toNat_digitChar]

theorem digitChar_ne (n : Nat) {c : Char} (h : c.toNat < 48 ∨ 57 < c.toNat) :
    digitChar n ≠ c := by
  intro he
  have h1 := toNat_digitChar n
  have : n % 10 < 10 := Nat.mod_lt _ (by norm_num)
  rw [he] at h1
  omega

theorem decodeOne_encodeChar (c : Char) (rest : List Nat) :
    decodeOne (utf8EncodeChar c ++ rest) = some (c, rest) := by
  have hv : c.toNat.isValidChar := c.valid
  have hofn : Char.ofNat c.toNat = c := Char.ofNat_toNat c
  set n := c.toNat with hn
  have hub : n < 0x110000 := by rcases hv with h | h <;> omega
  by_cases h1 : n < 0x80
  · simp only [utf8EncodeChar, ← hn, if_pos h1, List.cons_append, List.nil_append]
    simp [decodeOne, h1, hofn]
  · by_cases h2 : n < 0x800
    · simp only [utf8EncodeChar, ← hn, if_neg h1, if_pos h2, List.cons_append, List.nil_append]
      have hc : contByte (0x80 + n % 0x40) = true := by simp [contByte]; omega
      have hval : (0xC0 + n / 0x40 - 0xC0) * 0x40 + (0x80 + n % 0x40 - 0x80) = n := by omega
      simp only [decodeOne, if_neg (by omega : ¬ 0xC0 + n / 0x40 < 0x80),
        if_neg (by omega : ¬ 0xC0 + n / 0x40 < 0xC2),
        if_pos (by omega : 0xC0 + n / 0x40 < 0xE0), hc, if_pos, hval, hofn]
    · by_cases h3 : n < 0x10000
      · simp only [utf8EncodeChar, ← hn, if_neg h1, if_neg h2, if_pos h3, List.cons_append,
          List.nil_append]
        have hcond : (contByte (0x80 + n / 0x40 % 0x40) && contByte (0x80 + n % 0x40)
            && (decide (0xE0 + n / 0x1000 ≠ 0xE0) || decide (0xA0 ≤ 0x80 + n / 0x40 % 0x40))
            && (decide (0xE0 + n / 0x1000 ≠ 0xED) || decide (0x80 + n / 0x40 % 0x40 < 0xA0)))
            = true := by
          simp only [contByte, Bool.and_eq_true, Bool.or_eq_true, decide_eq_true_eq]
          rcases hv with h | h <;>
            refine ⟨⟨⟨⟨by omega, by omega⟩, ⟨by omega, by omega⟩⟩, ?_⟩, ?_⟩ <;> omega
        have hval : (0xE0 + n / 0x1000 - 0xE0) * 0x1000 + (0x80 + n / 0x40 % 0x40 - 0x80) * 0x40
            + (0x80 + n % 0x40 - 0x80) = n := by omega
        simp only [decodeOne, if_neg (by omega : ¬ 0xE0 + n / 0x1000 < 0x80),
          if_neg (by omega : ¬ 0xE0 + n / 0x1000 < 0xC2),
          if_neg (by omega : ¬ 0xE0 + n / 0x1000 < 0xE0),
          if_pos (by omega : 0xE0 + n / 0x1000 < 0xF0), hcond, if_pos, hval, hofn]
      · simp only [utf8EncodeChar, ← hn, if_neg h1, if_neg h2, if_neg h3, List.cons_append,
          List.nil_append]
        have hcond : (contByte (0x80 + n / 0x1000 % 0x40) && contByte (0x80 + n / 0x40 % 0x40)
            && contByte (0x80 + n % 0x40)
            && (decide (0xF0 + n / 0x40000 ≠ 0xF0) || decide (0x90 ≤ 0x80 + n / 0x1000 % 0x40))
            && (decide (0xF0 + n / 0x40000 ≠ 0xF4) || decide (0x80 + n / 0x1000 % 0x40 < 0x90)))
            = true := by
          simp only [contByte, Bool.and_eq_true, Bool.or_eq_true, decide_eq_true_eq]
          refine ⟨⟨⟨⟨⟨by omega, by omega⟩, ⟨by omega, by omega⟩⟩, ⟨by omega, by omega⟩⟩, ?_⟩, ?_⟩
            <;> omega
        have hval : (0xF0 + n / 0x40000 - 0xF0) * 0x40000 + (0x80 + n / 0x1000 % 0x40 - 0x80)
            * 0x1000 + (0x80 + n / 0x40 % 0x40 - 0x80) * 0x40 + (0x80 + n % 0x40 - 0x80) = n := by
          omega
        simp only [decodeOne, if_neg (by omega : ¬ 0xF0 + n / 0x40000 < 0x80),
          if_neg (by omega : ¬ 0xF0 + n / 0x40000 < 0xC2),
          if_neg (by omega : ¬ 0xF0 + n / 0x40000 < 0xE0),
          if_neg (by omega : ¬ 0xF0 + n / 0x40000 < 0xF0),
          if_pos (by omega : 0xF0 + n / 0x40000 < 0xF5), hcond, if_pos, hval, hofn]

theorem utf8EncodeChar_ne_nil (c : Char) : utf8EncodeChar c ≠ [] := by
  intro h
  unfold utf8EncodeChar at h
  dsimp only at h
  split at h
  · simp at h
  · split at h
    · simp at h
    · split at h
      · simp at h
      · simp at h

theorem le_length_encode (cs : List Char) : cs.length ≤ (utf8Encode cs).length := by
  induction cs with
  | nil => simp [utf8Encode]
  | cons c cs ih =>
    have he : utf8Encode (c :: cs) = utf8EncodeChar c ++ utf8Encode cs := by simp [utf8Encode]
    rw [he, List.length_append, List.length_cons]
    have h1 : 1 ≤ (utf8EncodeChar c).length := by
      cases hc : utf8EncodeChar c with
      | nil => exact absurd hc (utf8EncodeChar_ne_nil c)
      | cons b t => simp
    omega

theorem utf8DecodeAux_cons (f : Nat) (b : Nat) (bs : List Nat) :
    utf8DecodeAux (f + 1) (b :: bs) =
      match decodeOne (b :: bs) with
      | none => none
      | some (c, r) => (utf8DecodeAux f r).map (fun cs => c :: cs) := rfl

theorem utf8DecodeAux_encode : ∀ (cs : List Char) (fuel : Nat), cs.length ≤ fuel →
    utf8DecodeAux fuel (utf8Encode cs) = some cs := by
  intro cs
  induction cs with
  | nil => intro fuel _; cases fuel <;> rfl
  | cons c cs2 ih =>
    intro fuel hle
    cases fuel with
    | zero => simp at hle
    | succ f =>
      have henc : utf8Encode (c :: cs2) = utf8EncodeChar c ++ utf8Encode cs2 := by
        simp [utf8Encode]
      cases he : utf8EncodeChar c with
      | nil => exact absurd he (utf8EncodeChar_ne_nil c)
      | cons b t =>
        rw [henc, he, List.cons_append, utf8DecodeAux_cons]
        have hd : decodeOne (b :: (t ++ utf8Encode cs2)) = some (c, utf8Encode cs2) := by
          rw [← List.cons_append, ← he]
          exact decodeOne_encodeChar c _
        rw [hd]
        dsimp only
        have hle2 : cs2.length ≤ f := by simp at hle; omega
        rw [ih f hle2]
        rfl

theorem utf8DecodeList_encode (cs : List Char) :
    utf8DecodeList (utf8Encode cs) = some cs :=
  utf8DecodeAux_encode cs _ (le_length_encode cs)

theorem newline_not_mem_encodeChar {c : Char} (h : c ≠ '\n') : 10 ∉ utf8EncodeChar c := by
  intro hmem
  simp only [utf8EncodeChar] at hmem
  split at hmem
  · apply h
    have h10 : 10 = c.toNat := by simpa using hmem
    calc c = Char.ofNat c.toNat := (Char.ofNat_toNat c).symm
    _ = '\n' := by rw [← h10]
  · split at hmem
    · simp only [List.mem_cons, List.not_mem_nil, or_false] at hmem
      rcases hmem with h2 | h2 <;> omega
    · split at hmem <;>
      · simp only [List.mem_cons, List.not_mem_nil, or_false] at hmem
        rcases hmem with h2 | h2 | h2 <;> omega

theorem newline_not_mem_encode {cs : List Char} (h : '\n' ∉ cs) : 10 ∉ utf8Encode cs := by
  induction cs with
  | nil => simp [utf8Encode]
  | cons c cs ih =>
    have he : utf8Encode (c :: cs) = utf8EncodeChar c ++ utf8Encode cs := by simp [utf8Encode]
    rw [he]
    intro hmem
    rcases List.mem_append.mp hmem with h2 | h2
    · exact newline_not_mem_encodeChar (fun he2 => h (by simp [he2])) h2
    · exact ih (fun he2 => h (List.mem_cons_of_mem _ he2)) h2

theorem utf8Encode_snoc_newline (cs : List Char) :
    utf8Encode (cs ++ ['\n']) = utf8Encode cs ++ [10] := by
  simp [utf8Encode]
  rfl

theorem splitBytesAux_cons10 (rest acc : List Nat) :
    splitBytesAux (10 :: rest) acc = (acc.reverse ++ [10]) :: splitBytesAux rest [] := by
  simp [splitBytesAux]

theorem splitBytesAux_consne {x : Nat} (hx : x ≠ 10) (rest acc : List Nat) :
    splitBytesAux (x :: rest) acc = splitBytesAux rest (x :: acc) := by
  simp [splitBytesAux, hx]

theorem splitBytesAux_append {a : List Nat} (b : List Nat) (ha : a.getLast? = some 10) :
    ∀ acc, splitBytesAux (a ++ b) acc = splitBytesAux a acc ++ splitBytesAux b [] := by
  induction a with
  | nil => simp at ha
  | cons x a ih =>
    intro acc
    by_cases hx : x = 10
    · subst hx
      cases a with
      | nil =>
        rw [List.cons_append, List.nil_append, splitBytesAux_cons10, splitBytesAux_cons10]
        simp [splitBytesAux]
      | cons y a2 =>
        have ha2 : (y :: a2).getLast? = some 10 := by
          rwa [List.getLast?_cons_cons] at ha
        rw [List.cons_append, splitBytesAux_cons10, splitBytesAux_cons10, ih ha2 []]
        simp
    · have ha2 : a.getLast? = some 10 := by
        cases a with
        | nil => simp at ha; exact absurd ha hx
        | cons y a2 => rwa [List.getLast?_cons_cons] at ha
      rw [List.cons_append, splitBytesAux_consne hx, splitBytesAux_consne hx]
      exact ih ha2 (x :: acc)

theorem splitBytesAux_single {c : List Nat} (hc : 10 ∉ c) :
    ∀ acc, splitBytesAux (c ++ [10]) acc = [(acc.reverse ++ c) ++ [10]] := by
  induction c with
  | nil => intro acc; rw [List.nil_append, splitBytesAux_cons10]; simp [splitBytesAux]
  | cons x c ih =>
    intro acc
    have hx : x ≠ 10 := fun he => hc (by simp [he])
    rw [List.cons_append, splitBytesAux_consne hx,
      ih (fun he => hc (List.mem_cons_of_mem _ he)) (x :: acc)]
    simp

theorem splitBytesLines_split {a c : List Nat} (hab : a = [] ∨ a.getLast? = some 10)
    (hc : 10 ∉ c) :
    splitBytesLines (a ++ (c ++ [10])) = splitBytesLines a ++ [c ++ [10]] := by
  rcases hab with h | h
  · subst h
    simp only [List.nil_append, splitBytesLines]
    rw [splitBytesAux_single hc []]
    simp [splitBytesAux]
  · simp only [splitBytesLines]
    rw [splitBytesAux_append _ h [], splitBytesAux_single hc []]
    simp

theorem scanBack_cons (l : List Nat) (rest : List (List Nat)) (fe : Nat) (ht : Bool) :
    scanBack (l :: rest) fe ht =
      match utf8DecodeList l with
      | none => scanBack rest (fe + 1) ht
      | some s =>
        if timeMatch s then some (s, fe, ht || isTagsLine s)
        else scanBack rest (fe + 1) (ht || isTagsLine s) := rfl

theorem scanBack_none {ls : List (List Nat)}
    (h : ∀ l ∈ ls, ∀ s, utf8DecodeList l = some s → timeMatch s = false) :
    ∀ fe ht, scanBack ls fe ht = none := by
  induction ls with
  | nil => intro fe ht; rfl
  | cons l rest ih =>
    intro fe ht
    rw [scanBack_cons]
    cases hd : utf8DecodeList l with
    | none => exact ih (fun l2 hl2 => h l2 (List.mem_cons_of_mem _ hl2)) _ _
    | some s =>
      dsimp only
      rw [h l (List.mem_cons_self _ _) s hd]
      simp only [Bool.false_eq_true, if_false]
      exact ih (fun l2 hl2 => h l2 (List.mem_cons_of_mem _ hl2)) _ _

theorem scanBack_append {xs : List (List Nat)} (ys : List (List Nat))
    (h : ∀ l ∈ xs, ∀ s, utf8DecodeList l = some s → timeMatch s = false) :
    ∀ fe ht, scanBack (xs ++ ys) fe ht =
      scanBack ys (fe + xs.length)
        (ht || xs.any (fun l => ((utf8DecodeList l).map isTagsLine).getD false)) := by
  induction xs with
  | nil => simp
  | cons l rest ih =>
    intro fe ht
    rw [List.cons_append, scanBack_cons]
    cases hd : utf8DecodeList l with
    | none =>
      dsimp only
      rw [ih (fun l2 hl2 => h l2 (List.mem_cons_of_mem _ hl2)) (fe + 1) ht]
      simp only [List.any_cons, hd, Option.map_none', Option.getD_none, Bool.false_or,
        List.length_cons]
      congr 1
      omega
    | some s =>
      dsimp only
      rw [h l (List.mem_cons_self _ _) s hd]
      simp only [Bool.false_eq_true, if_false]
      rw [ih (fun l2 hl2 => h l2 (List.mem_cons_of_mem _ hl2)) (fe + 1) (ht || isTagsLine s)]
      simp only [List.any_cons, hd, Option.map_some', Option.getD_some, List.length_cons]
      rw [Bool.or_assoc]
      have harith : fe + 1 + rest.length = fe + (rest.length + 1) := by omega
      rw [harith]

theorem isPySpace_digitChar (n : Nat) : isPySpace (digitChar n) = false := by
  simp only [isPySpace, Bool.or_eq_false_iff, decide_eq_false_iff_not]
  refine ⟨⟨⟨⟨⟨?_, ?_⟩, ?_⟩, ?_⟩, ?_⟩, ?_⟩ <;> exact digitChar_ne _ (Or.inl (by decide))

theorem fmtTime_eq (t : DateTime) :
    fmtTime t = [digitChar (t.year / 1000), digitChar (t.year / 100), digitChar (t.year / 10),
      digitChar t.year, digitChar (t.month / 10), digitChar t.month, digitChar (t.day / 10),
      digitChar t.day, '-', digitChar (t.hour / 10), digitChar t.hour,
      digitChar (t.minute / 10), digitChar t.minute] := by
  simp [fmtTime, pad4, pad2]

theorem fmtTime_length (t : DateTime) : (fmtTime t).length = 13 := by
  rw [fmtTime_eq]; rfl

theorem bracket_not_mem_fmtTime (t : DateTime) : '[' ∉ fmtTime t := by
  rw [fmtTime_eq]
  intro h
  simp only [List.mem_cons, List.not_mem_nil, or_false] at h
  rcases h with h | h | h | h | h | h | h | h | h | h | h | h | h <;>
    first
      | exact digitChar_ne _ (Or.inr (by decide)) h.symm
      | exact absurd h (by decide)

theorem newline_not_mem_fmtTime (t : DateTime) : '\n' ∉ fmtTime t := by
  rw [fmtTime_eq]
  intro h
  simp only [List.mem_cons, List.not_mem_nil, or_false] at h
  rcases h with h | h | h | h | h | h | h | h | h | h | h | h | h <;>
    first
      | exact digitChar_ne _ (Or.inl (by decide)) h.symm
      | exact absurd h (by decide)

theorem stripLeft_eq_self {s : List Char} (h : ∀ c, s.head? = some c → isPySpace c = false) :
    stripLeft s = s := by
  cases s with
  | nil => rfl
  | cons c r =>
    simp only [stripLeft, List.dropWhile_cons, h c rfl, Bool.false_eq_true, if_false]

theorem stripRight_eq_self {s : List Char} (h : ∀ c, s.getLast? = some c → isPySpace c = false) :
    stripRight s = s := by
  unfold stripRight
  cases hs : s.reverse with
  | nil =>
    rw [List.dropWhile_nil]
    rw [← hs, List.reverse_reverse]
  | cons c r =>
    have hlast : s.getLast? = some c := by
      rw [← List.head?_reverse, hs]; rfl
    rw [List.dropWhile_cons, h c hlast]
    simp only [Bool.false_eq_true, if_false]
    rw [← hs, List.reverse_reverse]

theorem stripRight_snoc_space (s : List Char) : stripRight (s ++ [' ']) = stripRight s := by
  have hsp : isPySpace ' ' = true := rfl
  simp [stripRight, List.reverse_append, List.dropWhile_cons, hsp]

theorem strip_snoc_space {s : List Char} (hl : stripLeft s = s) (hr : stripRight s = s) :
    strip (s ++ [' ']) = s := by
  rw [strip, stripRight_snoc_space, hr, hl]

theorem stripLeft_fmtTime (t : DateTime) : stripLeft (fmtTime t) = fmtTime t := by
  refine stripLeft_eq_self ?_
  intro c hc
  rw [fmtTime_eq] at hc
  simp only [List.head?_cons, Option.some.injEq] at hc
  rw [← hc]
  exact isPySpace_digitChar _

theorem stripRight_fmtTime (t : DateTime) : stripRight (fmtTime t) = fmtTime t := by
  refine stripRight_eq_self ?_
  intro c hc
  rw [fmtTime_eq] at hc
  simp only [List.getLast?_cons_cons, List.getLast?_singleton, Option.some.injEq] at hc
  rw [← hc]
  exact isPySpace_digitChar _

theorem timeMatch_fmtTime (t : DateTime) (r : List Char) :
    timeMatch (fmtTime t ++ ' ' :: r) = true := by
  rw [fmtTime_eq]
  simp [timeMatch, isDigitCh_digitChar]

theorem isTagsLine_fmtTime (t : DateTime) (r : List Char) :
    isTagsLine (fmtTime t ++ r) = false := by
  rw [fmtTime_eq]
  simp only [isTagsLine, decide_eq_false_iff_not, chars]
  intro heq
  simp only [List.cons_append, List.take_succ_cons, List.take_zero, String.toList] at heq
  exact @digitChar_ne (t.year / 1000) 't' (Or.inr (by decide))
    (List.cons.injEq .. ▸ heq).1

theorem readNat2_digits (m : Nat) (h : m ≤ 99) :
    readNat [digitChar (m / 10), digitChar m] = m := by
  simp [readNat, digitVal_digitChar]
  omega

theorem readNat4_digits (m : Nat) (h : m ≤ 9999) :
    readNat [digitChar (m / 1000), digitChar (m / 100), digitChar (m / 10), digitChar m] = m := by
  simp [readNat, digitVal_digitChar]
  omega

theorem daysInMonth_le (y m : Nat) : daysInMonth y m ≤ 31 := by
  unfold daysInMonth
  split
  · split <;> omega
  · split <;> omega

theorem parseTime_fmtTime {t : DateTime} (h : t.Valid) :
    parseTime (fmtTime t) = some (truncMinute t) := by
  obtain ⟨hy1, hy2, hm1, hm2, hd1, hd2, hh, hmi, _⟩ := h
  have hdm := daysInMonth_le t.year t.month
  rw [fmtTime_eq]
  simp only [parseTime]
  rw [if_pos (by simp [isDigitCh_digitChar])]
  rw [readNat4_digits _ hy2, readNat2_digits _ (by omega), readNat2_digits _ (by omega),
    readNat2_digits _ (by omega), readNat2_digits _ (by omega)]
  rw [if_pos]
  · cases t
    simp [truncMinute]
  · simp only [Bool.and_eq_true, decide_eq_true_eq]
    exact ⟨⟨⟨⟨⟨⟨hy1, hm1⟩, hm2⟩, hd1⟩, hd2⟩, hh⟩, hmi⟩

theorem dropWhile_all_append {p : Char → Bool} {a : List Char} (h : ∀ x ∈ a, p x = true)
    (b : List Char) : List.dropWhile p (a ++ b) = List.dropWhile p b := by
  induction a with
  | nil => simp
  | cons x a2 ih =>
    rw [List.cons_append, List.dropWhile_cons, h x (List.mem_cons_self _ _)]
    exact ih fun y hy => h y (List.mem_cons_of_mem _ hy)

theorem gitSearch_none_of_space (core : List Char) (h : core.getLast? = some ' ') :
    gitSearch (core ++ ['\n']) = none := by
  unfold gitSearch dropNl
  rw [if_pos (List.getLast?_concat core), List.dropLast_concat]
  simp [h]

theorem gitSearch_some {pre mid : List Char} (hpre : '[' ∉ pre) :
    gitSearch ((pre ++ '[' :: mid ++ [']']) ++ ['\n']) = some ('[' :: mid ++ [']']) := by
  unfold gitSearch dropNl
  rw [if_pos (List.getLast?_concat _), List.dropLast_concat]
  have hlast : (pre ++ '[' :: mid ++ [']']).getLast? = some ']' :=
    List.getLast?_concat _
  have hdrop : List.dropWhile (fun c => decide (c ≠ '[')) (pre ++ '[' :: mid ++ [']']) =
      '[' :: mid ++ [']'] := by
    rw [List.append_assoc]
    rw [@dropWhile_all_append (fun c => decide (c ≠ '[')) pre
      (fun x hx => by
        simp only [decide_eq_true_eq]
        exact fun he => hpre (he ▸ hx)) ('[' :: mid ++ [']'])]
    rw [List.cons_append, List.dropWhile_cons]
    simp
  dsimp only
  rw [hlast, hdrop]
  simp

theorem work_state_appendLine {now : DateTime} {dir git : List Char} (fe : Nat)
    (ht : Option Bool) (hval : now.Valid)
    (hdirL : stripLeft dir = dir) (hdirR : stripRight dir = dir)
    (hdirB : '[' ∉ dir)
    (hgit : git = [] ∨ ∃ mid, git = '[' :: mid ++ [']']) :
    work_state (appendLine now dir git) fe ht =
      some { time := some (truncMinute now), cwd := some dir, git_info := some git,
             from_end := some fe, has_tags := ht } := by
  have hline : appendLine now dir git =
      ((fmtTime now ++ [' ']) ++ (dir ++ [' '])) ++ (git ++ ['\n']) := by
    simp [appendLine]
  have hlen14 : (fmtTime now ++ [' ']).length = 14 := by
    simp [fmtTime_length]
  have htm : timeMatch (appendLine now dir git) = true := by
    have : appendLine now dir git = fmtTime now ++ ' ' :: (dir ++ ' ' :: git ++ ['\n']) := by
      simp [appendLine]
    rw [this]
    exact timeMatch_fmtTime _ _
  have htake : (appendLine now dir git).take 14 = fmtTime now ++ [' '] := by
    rw [hline, List.append_assoc, List.take_append_of_le_length (by omega),
      List.take_of_length_le (le_of_eq hlen14)]
  have hstrip14 : strip ((appendLine now dir git).take 14) = fmtTime now := by
    rw [htake]
    exact strip_snoc_space (stripLeft_fmtTime now) (stripRight_fmtTime now)
  have hgitv : wsGit (appendLine now dir git) = git := by
    unfold wsGit
    rcases hgit with hg | ⟨mid, hg⟩
    · subst hg
      have harg : appendLine now dir [] = ((fmtTime now ++ ' ' :: dir) ++ [' ']) ++ ['\n'] := by
        simp [appendLine]
      rw [harg, gitSearch_none_of_space _ (List.getLast?_concat _)]
      rfl
    · subst hg
      have hpre : '[' ∉ fmtTime now ++ ' ' :: dir ++ [' '] := by
        intro hmem
        simp only [List.mem_append, List.mem_cons, List.mem_singleton,
          List.not_mem_nil, or_false] at hmem
        rcases hmem with (h | h | h) | h
        · exact bracket_not_mem_fmtTime now h
        · exact absurd h (by decide)
        · exact hdirB h
        · exact absurd h (by decide)
      have harg : appendLine now dir ('[' :: mid ++ [']']) =
          ((fmtTime now ++ ' ' :: dir ++ [' ']) ++ '[' :: mid ++ [']']) ++ ['\n'] := by
        simp [appendLine]
      rw [harg, gitSearch_some hpre]
      rfl
  have hlinelen : (appendLine now dir git).length = 16 + dir.length + git.length := by
    simp [appendLine, fmtTime_length]
    omega
  have hcwd : wsCwd (appendLine now dir git) = dir := by
    unfold wsCwd
    rw [hgitv, hlinelen]
    have harith : 16 + dir.length + git.length - git.length - 1 =
        ((fmtTime now ++ [' ']) ++ (dir ++ [' '])).length := by
      simp [fmtTime_length]
      omega
    rw [harith, hline, List.take_left, ← hlen14, List.drop_left]
    exact strip_snoc_space hdirL hdirR
  unfold work_state
  rw [htm, hstrip14, parseTime_fmtTime hval]
  simp only [if_true]
  rw [hgitv, hcwd]

theorem drop_keeps_last10 {l : List Nat} (k : Nat) (h : l = [] ∨ l.getLast? = some 10) :
    l.drop k = [] ∨ (l.drop k).getLast? = some 10 := by
  rcases h with h | h
  · subst h; simp
  · by_cases hnil : l.drop k = []
    · exact Or.inl hnil
    · right
      obtain ⟨t, ht⟩ := List.drop_suffix k l
      rw [← ht, List.getLast?_append] at h
      cases hd : (l.drop k).getLast? with
      | none => exact absurd (List.getLast?_eq_none_iff.mp hd) hnil
      | some x =>
        rw [hd] at h
        simp only [Option.or_some, Option.some.injEq] at h
        rw [h]

theorem last_state_some_of_scan {bs : List Nat} {line : List Char} {fe : Nat} {ht : Bool}
    (h : scanBack (splitBytesLines (windowBytes bs)).reverse 0 false = some (line, fe, ht)) :
    last_state bs = work_state line fe (some ht) := by
  unfold last_state
  rw [h]
  rfl

theorem last_state_none_of_scan {bs : List Nat}
    (h : scanBack (splitBytesLines (windowBytes bs)).reverse 0 false = none) :
    last_state bs = some {} := by
  unfold last_state
  rw [h]
  rfl

/-- Claim C1 (amended): appending a record and immediately reading `last_state`
round-trips the minute-truncated timestamp, the directory and the git summary,
provided the log is empty or newline-terminated, the appended line fits in the
10,000-byte tail window, the directory contains no `[` and no newline and no
leading or trailing whitespace, and the git summary is empty or a
`[`...`]`-bracketed newline-free string (the forms `GitInfo.__str__` emits). -/
theorem c1_roundtrip_amended (log : List Nat) (now : DateTime) (dir git : List Char)
    (hlog : log = [] ∨ log.getLast? = some 10)
    (hnow : now.Valid)
    (hdirL : stripLeft dir = dir) (hdirR : stripRight dir = dir)
    (hdirB : '[' ∉ dir) (hdirN : '\n' ∉ dir)
    (hgit : git = [] ∨ ∃ mid, git = '[' :: mid ++ [']'] ∧ '\n' ∉ mid)
    (hlen : (utf8Encode (appendLine now dir git)).length ≤ 10000) :
    last_state (log ++ utf8Encode (appendLine now dir git)) =
      some { time := some (truncMinute now), cwd := some dir, git_info := some git,
             from_end := some 0, has_tags := some false } := by
  have hgit2 : git = [] ∨ ∃ mid, git = '[' :: mid ++ [']'] := by
    rcases hgit with h | ⟨mid, h, _⟩
    exacts [Or.inl h, Or.inr ⟨mid, h⟩]
  have hbody : appendLine now dir git = (fmtTime now ++ ' ' :: dir ++ ' ' :: git) ++ ['\n'] := by
    simp [appendLine]
  have hnlbody : '\n' ∉ fmtTime now ++ ' ' :: dir ++ ' ' :: git := by
    intro hmem
    simp only [List.mem_append, List.mem_cons, List.mem_singleton,
      List.not_mem_nil, or_false] at hmem
    rcases hmem with (h | h | h) | h | h
    · exact newline_not_mem_fmtTime now h
    · exact absurd h (by decide)
    · exact hdirN h
    · exact absurd h (by decide)
    · rcases hgit with hg | ⟨mid, hg, hmidN⟩
      · subst hg; simp at h
      · subst hg
        simp only [List.cons_append, List.mem_cons, List.mem_append,
          List.mem_singleton, List.not_mem_nil, or_false] at h
        rcases h with h | h | h
        · exact absurd h (by decide)
        · exact hmidN h
        · exact absurd h (by decide)
  have hencsplit : utf8Encode (appendLine now dir git) =
      utf8Encode (fmtTime now ++ ' ' :: dir ++ ' ' :: git) ++ [10] := by
    rw [hbody, utf8Encode_snoc_newline]
  have h10 : 10 ∉ utf8Encode (fmtTime now ++ ' ' :: dir ++ ' ' :: git) :=
    newline_not_mem_encode hnlbody
  have hstep : ∃ k, windowBytes (log ++ utf8Encode (appendLine now dir git)) =
      log.drop k ++ utf8Encode (appendLine now dir git) ∧
      (log.drop k = [] ∨ (log.drop k).getLast? = some 10) := by
    refine ⟨(log ++ utf8Encode (appendLine now dir git)).length - 10000, ?_, ?_⟩
    · unfold windowBytes
      exact List.drop_append_of_le_length (by rw [List.length_append]; omega)
    · exact drop_keeps_last10 _ hlog
  obtain ⟨k, hwin, ha⟩ := hstep
  have hsplit : splitBytesLines (windowBytes (log ++ utf8Encode (appendLine now dir git))) =
      splitBytesLines (log.drop k) ++ [utf8Encode (appendLine now dir git)] := by
    rw [hwin, hencsplit]
    exact splitBytesLines_split ha h10
  have hdec : utf8DecodeList (utf8Encode (appendLine now dir git)) =
      some (appendLine now dir git) := utf8DecodeList_encode _
  clear hlen hlog
  have hshape : appendLine now dir git =
      fmtTime now ++ ' ' :: (dir ++ (' ' :: (git ++ ['\n']))) := by
    simp [appendLine]
  have htm : timeMatch (appendLine now dir git) = true := by
    rw [hshape]; exact timeMatch_fmtTime _ _
  have htp : isTagsLine (appendLine now dir git) = false := by
    rw [hshape]; exact isTagsLine_fmtTime _ _
  have hscan : scanBack
      (splitBytesLines (windowBytes (log ++ utf8Encode (appendLine now dir git)))).reverse
      0 false = some (appendLine now dir git, 0, false) := by
    rw [hsplit, List.reverse_append, List.reverse_singleton, List.singleton_append,
      scanBack_cons, hdec]
    dsimp only
    rw [htm, htp]
    simp
  rw [last_state_some_of_scan hscan]
  exact work_state_appendLine 0 (some false) hnow hdirL hdirR hdirB hgit2

/-- Claim C1 is false as stated: for a working directory containing `[`
(here `/a/[b`, git summary `[m x]`), the bracket regex matches from the
directory's own `[`, so `last_state` returns directory `/a/` and git summary
`[b [m x]` instead of what was appended. -/
theorem c1_counterexample :
    last_state (utf8Encode (appendLine ⟨2024, 1, 1, 9, 0, 0⟩ (chars "/a/[b") (chars "[m x]"))) =
      some { time := some ⟨2024, 1, 1, 9, 0, 0⟩, cwd := some (chars "/a/"),
             git_info := some (chars "[b [m x]"), from_end := some 0,
             has_tags := some false } ∧
    chars "/a/" ≠ chars "/a/[b" ∧ chars "[b [m x]" ≠ chars "[m x]" :=
  ⟨by decide, by decide, by decide⟩

/-- Witness for C1 (amended): a concrete append on a newline-terminated log
round-trips through `last_state`. -/
theorem c1_roundtrip_amended_witness :
    last_state (utf8Encode (chars "20240101-0905 /x []\n") ++
        utf8Encode (appendLine ⟨2024, 1, 1, 9, 6, 30⟩ (chars "/home/u/proj")
          (chars "[main abc]"))) =
      some { time := some ⟨2024, 1, 1, 9, 6, 0⟩, cwd := some (chars "/home/u/proj"),
             git_info := some (chars "[main abc]"), from_end := some 0,
             has_tags := some false } :=
  c1_roundtrip_amended (utf8Encode (chars "20240101-0905 /x []\n")) ⟨2024, 1, 1, 9, 6, 30⟩
    (chars "/home/u/proj") (chars "[main abc]")
    (Or.inr (by decide)) (by decide) (by decide) (by decide) (by decide) (by decide)
    (Or.inr ⟨chars "main abc", by decide, by decide⟩) (by decide)

theorem doMain_some {env : MainEnv} {ws : WorkState} (h : last_state env.log = some ws) :
    doMain env = doMainLast env ws := by
  unfold doMain
  rw [h]
  rfl

/-- The append condition of `__main__` as a single boolean. -/
theorem doMainLast_appended (env : MainEnv) (ws : WorkState) :
    (doMainLast env ws).appended =
      (ws.time.isNone ||
        (match ws.time with
         | some t => decide (((INTERVAL : Int) * 60) ≤ (dtToSec env.now : Int) - (dtToSec t : Int))
         | none => false) ||
        decide (env.resolvePath (ws.cwd.getD []) ≠ env.realpath) ||
        decide (ws.git_info ≠ some (gitInfoStr env.gitParts))) := by
  unfold doMainLast
  dsimp only
  cases hw : ws.time with
  | none =>
    simp
  | some t =>
    simp only [Option.isNone_some, Bool.false_or]
    split
    · rename_i hc
      exact hc.symm
    · rename_i hc
      rw [Bool.not_eq_true] at hc
      exact hc.symm

/-- Claim C2: with `last_state` read normally, a record is appended iff no
previous record exists, or at least `INTERVAL` (=15) minutes elapsed, or the
resolved current directory differs from the resolved recorded one, or the
current git textual summary differs from the recorded one. -/
theorem c2_append_decision (env : MainEnv) (ws : WorkState)
    (h : last_state env.log = some ws) :
    (doMain env).appended = true ↔
      (ws.time = none ∨
        (∃ t, ws.time = some t ∧
          ((INTERVAL : Int) * 60) ≤ (dtToSec env.now : Int) - (dtToSec t : Int)) ∨
        env.resolvePath (ws.cwd.getD []) ≠ env.realpath ∨
        ws.git_info ≠ some (gitInfoStr env.gitParts)) := by
  rw [doMain_some h, doMainLast_appended]
  cases hw : ws.time with
  | none => simp [hw]
  | some t =>
    simp only [hw, Option.isNone_some, Bool.false_or, Bool.or_eq_true, decide_eq_true_eq,
      Option.some.injEq]
    constructor
    · rintro ((h1 | h2) | h3)
      · exact Or.inr (Or.inl ⟨t, rfl, h1⟩)
      · exact Or.inr (Or.inr (Or.inl h2))
      · exact Or.inr (Or.inr (Or.inr h3))
    · rintro (h0 | ⟨t2, ht2, h1⟩ | h2 | h3)
      · cases h0
      · cases ht2
        exact Or.inl (Or.inl h1)
      · exact Or.inl (Or.inr h2)
      · exact Or.inr h3

/-- Witness for C2: sixteen minutes after the last record, with directory and
git summary unchanged, the decision is to append. -/
theorem c2_append_decision_witness :
    last_state (utf8Encode (chars "20240101-0900 /a\n")) =
      some { time := some ⟨2024, 1, 1, 9, 0, 0⟩, cwd := some (chars "/a"),
             git_info := some [], from_end := some 0, has_tags := some false } ∧
    (doMain ⟨utf8Encode (chars "20240101-0900 /a\n"), ⟨2024, 1, 1, 9, 16, 0⟩, {},
        chars "/a", fun p => p⟩).appended = true := by
  refine ⟨by decide, ?_⟩
  exact (c2_append_decision
    ⟨utf8Encode (chars "20240101-0900 /a\n"), ⟨2024, 1, 1, 9, 16, 0⟩, {}, chars "/a", fun p => p⟩
    { time := some ⟨2024, 1, 1, 9, 0, 0⟩, cwd := some (chars "/a"),
      git_info := some [], from_end := some 0, has_tags := some false }
    (by decide)).mpr
    (Or.inr (Or.inl ⟨⟨2024, 1, 1, 9, 0, 0⟩, by decide, by decide⟩))

/-- Claim C3 is false as stated: at elapsed seconds exactly 60 (no append),
the code prints `floor((900-60)/60)+1 = 15`, while the claimed formula
`ceil((900-60)/60)` gives 14. -/
theorem c3_counterexample :
    doMain ⟨utf8Encode (chars "20240101-0900 /a\n"), ⟨2024, 1, 1, 9, 1, 0⟩, {},
        chars "/a", fun p => p⟩ =
      { log := utf8Encode (chars "20240101-0900 /a\n"), appended := false, err := none,
        shown := some 15 } ∧
    minutesRemainingSpec 60 = 14 ∧ (15 : Int) ≠ 14 :=
  ⟨by decide, by decide, by decide⟩

/-- Claim C3 (amended): the printed countdown equals
`floor((interval·60 − s)/60) + 1` where `s` is the elapsed seconds, clamped
to 1 immediately after an append; this agrees with the spec's ceiling
formula whenever `s` is not a multiple of 60. -/
theorem c3_countdown_amended (env : MainEnv) (ws : WorkState) (t : DateTime)
    (h : last_state env.log = some ws) (ht : ws.time = some t) :
    ((doMain env).shown =
      some (minutes_remaining
        (if (doMain env).appended then 1
         else (dtToSec env.now : Int) - (dtToSec t : Int)))) ∧
    (∀ s : Int, ¬ (60 : Int) ∣ s → minutes_remaining s = minutesRemainingSpec s) := by
  constructor
  · rw [doMain_some h]
    unfold doMainLast
    dsimp only
    split
    · rw [ht]
      rfl
    · rw [ht]
      rfl
  · intro s hs
    unfold minutes_remaining minutesRemainingSpec INTERVAL
    rw [Int.fdiv_eq_ediv _ (by norm_num), Int.fdiv_eq_ediv _ (by norm_num)]
    omega

/-- Witness for C3 (amended): at 59 elapsed seconds (not a multiple of 60) the
printed countdown is 15 and matches the ceiling formula. -/
theorem c3_countdown_amended_witness :
    last_state (utf8Encode (chars "20240101-0900 /a\n")) =
      some { time := some ⟨2024, 1, 1, 9, 0, 0⟩, cwd := some (chars "/a"),
             git_info := some [], from_end := some 0, has_tags := some false } ∧
    (doMain ⟨utf8Encode (chars "20240101-0900 /a\n"), ⟨2024, 1, 1, 9, 0, 59⟩, {},
        chars "/a", fun p => p⟩).shown = some 15 ∧
    minutes_remaining 59 = minutesRemainingSpec 59 := by
  have h := c3_countdown_amended
    ⟨utf8Encode (chars "20240101-0900 /a\n"), ⟨2024, 1, 1, 9, 0, 59⟩, {}, chars "/a", fun p => p⟩
    { time := some ⟨2024, 1, 1, 9, 0, 0⟩, cwd := some (chars "/a"),
      git_info := some [], from_end := some 0, has_tags := some false }
    ⟨2024, 1, 1, 9, 0, 0⟩ (by decide) rfl
  refine ⟨by decide, ?_, h.2 59 (by decide)⟩
  rw [h.1]
  decide

/-- Claim C4 (code bug): on a log with no timestamped record, the flow appends
the first record and then raises `NameError` reading the never-assigned
`seconds` variable, instead of completing. -/
theorem c4_first_run_name_error :
    doMain ⟨[], ⟨2024, 1, 1, 9, 0, 0⟩, {}, chars "/a", fun p => p⟩ =
      { log := utf8Encode (appendLine ⟨2024, 1, 1, 9, 0, 0⟩ (chars "/a") []),
        appended := true, err := some MainErr.nameError, shown := none } := by
  decide

/-- Claim C5: when no line of the tail window decodes to a `TIME_REGEX`
match, `last_state` returns the no-state sentinel and does not raise. -/
theorem c5_no_state_sentinel (bs : List Nat)
    (h : ∀ l ∈ splitBytesLines (windowBytes bs), ∀ s, utf8DecodeList l = some s →
      timeMatch s = false) :
    last_state bs = some {} := by
  apply last_state_none_of_scan
  apply scanBack_none
  intro l hl
  exact h l (List.mem_reverse.mp hl)

/-- Witness for C5: the empty (newly created) log. -/
theorem c5_no_state_sentinel_witness :
    last_state ([] : List Nat) = some {} :=
  c5_no_state_sentinel [] (by simp [splitBytesLines, splitBytesAux, windowBytes])

/-- Claim C6: an undecodable line in the tail window (e.g. a split multi-byte
character) is skipped: the backward scan continues and still finds and
returns the timestamped line that precedes the undecodable one. -/
theorem c6_undecodable_skipped (bs : List Nat) (pre post : List (List Nat)) (tl : List Nat)
    (s : List Char) (t : DateTime)
    (hlines : splitBytesLines (windowBytes bs) = pre ++ tl :: post)
    (hskip : ∀ l ∈ post, ∀ s2, utf8DecodeList l = some s2 → timeMatch s2 = false)
    (hbad : ∃ l ∈ post, utf8DecodeList l = none)
    (hdec : utf8DecodeList tl = some s)
    (htm : timeMatch s = true)
    (hparse : parseTime (strip (s.take 14)) = some t) :
    ∃ b : Bool, last_state bs =
      some { time := some t, cwd := some (wsCwd s), git_info := some (wsGit s),
             from_end := some post.length, has_tags := some b } := by
  refine ⟨(false || post.reverse.any
    (fun l => ((utf8DecodeList l).map isTagsLine).getD false)) || isTagsLine s, ?_⟩
  have hrev : (splitBytesLines (windowBytes bs)).reverse = post.reverse ++ tl :: pre.reverse := by
    rw [hlines]
    simp
  have hscan : scanBack (splitBytesLines (windowBytes bs)).reverse 0 false =
      some (s, post.length,
        (false || post.reverse.any
          (fun l => ((utf8DecodeList l).map isTagsLine).getD false)) || isTagsLine s) := by
    rw [hrev, scanBack_append _ (fun l hl => hskip l (List.mem_reverse.mp hl)) 0 false,
      scanBack_cons, hdec]
    dsimp only
    rw [htm]
    simp [List.length_reverse]
  rw [last_state_some_of_scan hscan]
  unfold work_state
  rw [htm, hparse]
  simp

/-- Witness for C6: a log ending in a raw undecodable byte sequence still
yields the earlier record. -/
theorem c6_undecodable_skipped_witness :
    utf8DecodeList [0xFF, 10] = none ∧
    ∃ b : Bool, last_state (utf8Encode (chars "20240101-0900 /a []\n") ++ [0xFF, 10]) =
      some { time := some ⟨2024, 1, 1, 9, 0, 0⟩,
             cwd := some (wsCwd (chars "20240101-0900 /a []\n")),
             git_info := some (wsGit (chars "20240101-0900 /a []\n")),
             from_end := some 1, has_tags := some b } := by
  refine ⟨by decide, ?_⟩
  have h := c6_undecodable_skipped (utf8Encode (chars "20240101-0900 /a []\n") ++ [0xFF, 10])
    [] [[0xFF, 10]] (utf8Encode (chars "20240101-0900 /a []\n"))
    (chars "20240101-0900 /a []\n") ⟨2024, 1, 1, 9, 0, 0⟩
    (by decide)
    (by
      intro l hl s2 hd
      simp only [List.mem_singleton] at hl
      subst hl
      rw [show utf8DecodeList [0xFF, 10] = none by decide] at hd
      exact Option.noConfusion hd)
    ⟨[0xFF, 10], by simp, by decide⟩
    (by decide) (by decide) (by decide)
  exact h

/-- Claim C7 is false as stated: some status-query outputs without `fatal: `
(here the shell's missing-executable message, with empty stdout) make
`git_info` raise (IndexError on `status[0].split()[-1]`) instead of
returning an empty `GitInfo`. -/
theorem c7_counterexample :
    git_info [] (chars "sh: git: command not found") (fun _ => []) [] = none := by
  decide

/-- Claim C7 (amended): whenever the combined status output contains
`fatal: `, `git_info` returns the empty `GitInfo`, whose textual form is the
empty string; outputs lacking `fatal: ` with an empty first line instead
raise. -/
theorem c7_fatal_empty (out err : List Char) (remoteUrl : List Char → List Char)
    (rev : List Char) (h : isSubstr (chars "fatal: ") (out ++ '\n' :: err) = true) :
    git_info out err remoteUrl rev = some {} ∧ gitInfoStr {} = [] := by
  constructor
  · unfold git_info
    dsimp only
    rw [if_pos h]
  · rfl

/-- Witness for C7 (amended): a concrete `fatal: ` status output. -/
theorem c7_fatal_empty_witness :
    isSubstr (chars "fatal: ") (chars "fatal: not a git repo" ++ '\n' :: []) = true ∧
    git_info (chars "fatal: not a git repo") [] (fun _ => []) [] = some {} :=
  ⟨by decide, (c7_fatal_empty (chars "fatal: not a git repo") [] (fun _ => []) [] (by decide)).1⟩

/-- Claim C8 is false as stated: with the only printable match exactly 5
levels above the starting directory, `lw_history` (looping `range(5)`:
levels 0–4) prints nothing, though a pass at the 5-levels-up directory would
produce output. -/
theorem c8_counterexample :
    lw_history (utf8Encode (chars "20240101-0900 /a []\nnote\n20240101-0905 /a/b/c/d/e/f []\n"))
      = some [] ∧
    dirname (dirname (dirname (dirname (dirname (chars "/a/b/c/d/e/f"))))) = chars "/a" ∧
    historyPassAux
      (splitCharLines (chars "20240101-0900 /a []\nnote\n20240101-0905 /a/b/c/d/e/f []\n"))
      (chars "/a") 5 false [] =
      some ([mkHeader 5 (chars "20240101-0900 /a []\n") ++ chars "note\n"], true, false, []) :=
  ⟨by decide, by decide, by decide⟩

/-- Claim C8 (amended): the reporter retries with the parent directory up to
4 levels up (5 passes total: the starting directory plus four parents); the
printed output is that of the first pass that prints anything, and a pass at
level `u ≥ 1` annotates each record header with `" u LEVEL UP"`. -/
theorem c8_history_levels (bs : List Nat) (ws : WorkState) (t : DateTime) (d0 : List Char)
    (cs : List Char) (p1 p2 p3 p4 : Bool) (t1 t2 t3 t4 : List Char)
    (chunks : List (List Char)) (p5 : Bool) (t5 : List Char)
    (hls : last_state bs = some ws) (htime : ws.time = some t) (hcwd : ws.cwd = some d0)
    (hdec : utf8DecodeList bs = some cs)
    (h0 : historyPassAux (splitCharLines cs) d0 0 false [] = some ([], false, p1, t1))
    (h1 : historyPassAux (splitCharLines cs) (dirname d0) 1 p1 t1 = some ([], false, p2, t2))
    (h2 : historyPassAux (splitCharLines cs) (dirname (dirname d0)) 2 p2 t2 =
      some ([], false, p3, t3))
    (h3 : historyPassAux (splitCharLines cs) (dirname (dirname (dirname d0))) 3 p3 t3 =
      some ([], false, p4, t4))
    (h4 : historyPassAux (splitCharLines cs) (dirname (dirname (dirname (dirname d0)))) 4 p4 t4 =
      some (chunks, true, p5, t5)) :
    lw_history bs = some chunks ∧
    ∀ (u : Nat) (line : List Char), u ≠ 0 → (chars " LEVEL UP") <:+: mkHeader u line := by
  constructor
  · unfold lw_history
    rw [hls]
    show lwHistoryOf bs (some ws) = some chunks
    unfold lwHistoryOf
    dsimp only
    rw [htime]
    dsimp only
    rw [hcwd]
    dsimp only [Option.getD_some]
    rw [hdec]
    show historyLoop (splitCharLines cs) [0, 1, 2, 3, 4] d0 false [] = some chunks
    simp [historyLoop, h0, h1, h2, h3, h4]
  · intro u line hu
    unfold mkHeader
    dsimp only
    rw [if_pos hu]
    exact ⟨strip (RED ++ chars "# " ++ strip line ++ DEFAULT) ++ YELLOW ++
      ' ' :: Nat.toDigits 10 u, DEFAULT ++ ['\n'], by simp⟩

/-- Witness for C8 (amended): a match at exactly 4 levels up is found and
annotated with `4 LEVEL UP`. -/
theorem c8_history_levels_witness :
    lw_history (utf8Encode (chars "20240101-0900 /a []\nnote\n20240101-0905 /a/b/c/d/e []\n")) =
      some [mkHeader 4 (chars "20240101-0900 /a []\n") ++ chars "note\n"] ∧
    (chars " LEVEL UP") <:+: mkHeader 4 (chars "20240101-0900 /a []\n") := by
  have h := c8_history_levels
    (utf8Encode (chars "20240101-0900 /a []\nnote\n20240101-0905 /a/b/c/d/e []\n"))
    { time := some ⟨2024, 1, 1, 9, 5, 0⟩, cwd := some (chars "/a/b/c/d/e"),
      git_info := some (chars "[]"), from_end := some 0, has_tags := some false }
    ⟨2024, 1, 1, 9, 5, 0⟩ (chars "/a/b/c/d/e")
    (chars "20240101-0900 /a []\nnote\n20240101-0905 /a/b/c/d/e []\n")
    true false false false
    (mkHeader 0 (chars "20240101-0905 /a/b/c/d/e []\n"))
    (mkHeader 0 (chars "20240101-0905 /a/b/c/d/e []\n"))
    (mkHeader 0 (chars "20240101-0905 /a/b/c/d/e []\n"))
    (mkHeader 0 (chars "20240101-0905 /a/b/c/d/e []\n"))
    [mkHeader 4 (chars "20240101-0900 /a []\n") ++ chars "note\n"] false []
    (by decide) rfl rfl (by decide)
    (by decide) (by decide) (by decide) (by decide) (by decide)
  exact ⟨h.1, h.2 4 (chars "20240101-0900 /a []\n") (by decide)⟩

theorem tagsFoldStep_collapse (acc : Finset (List Char) × Finset (List Char)) (l : List Char) :
    ((if acc.2 ≠ ∅ then acc.1 ∪ acc.2 else acc.1), tagTokens l) =
      (acc.1 ∪ acc.2, tagTokens l) := by
  split
  · rfl
  · rename_i h
    rw [not_not] at h
    rw [h, Finset.union_empty]

theorem tagsFold_filter (lines : List (List Char)) :
    tagsFold lines =
      (lines.filter isTagsLine).foldl (fun acc l => (acc.1 ∪ acc.2, tagTokens l)) (∅, ∅) := by
  unfold tagsFold
  suffices h : ∀ (acc : Finset (List Char) × Finset (List Char)),
      lines.foldl (fun acc line => if isTagsLine line then
        ((if acc.2 ≠ ∅ then acc.1 ∪ acc.2 else acc.1), tagTokens line) else acc) acc =
      (lines.filter isTagsLine).foldl (fun acc l => (acc.1 ∪ acc.2, tagTokens l)) acc from h _
  induction lines with
  | nil => intro acc; rfl
  | cons x ls ih =>
    intro acc
    by_cases hx : isTagsLine x
    · rw [List.filter_cons_of_pos hx, List.foldl_cons, List.foldl_cons, if_pos hx,
        tagsFoldStep_collapse]
      exact ih _
    · rw [List.filter_cons_of_neg (by simpa using hx), List.foldl_cons, if_neg hx]
      exact ih _

theorem foldl_union_snoc (init : List (List Char)) (l : List Char) :
    ∀ (a b : Finset (List Char)),
      List.foldl (fun acc l2 => (acc.1 ∪ acc.2, tagTokens l2)) (a, b) (init ++ [l]) =
        (init.foldl (fun s l2 => s ∪ tagTokens l2) (a ∪ b), tagTokens l) := by
  induction init with
  | nil => intro a b; rfl
  | cons x init ih =>
    intro a b
    rw [List.cons_append, List.foldl_cons, List.foldl_cons]
    exact ih (a ∪ b) (tagTokens x)

/-- Claim C9: the tag-inventory fold reports as new exactly the tokens of the
most recent `tags:` line not seen on any earlier `tags:` line, with the
earlier lines' tokens as the accumulated previous set, and reports nothing
when that difference is empty. -/
theorem c9_tag_inventory (lines init : List (List Char)) (l : List Char)
    (hfil : lines.filter isTagsLine = init ++ [l]) :
    tags_report lines =
      (if tagTokens l \ unionTagTokens init ≠ ∅ then
        some (unionTagTokens init, tagTokens l \ unionTagTokens init)
      else none) := by
  unfold tags_report
  rw [tagsFold_filter, hfil, foldl_union_snoc]
  simp only [unionTagTokens, Finset.empty_union]

/-- Witness for C9: the spec's concrete example on `tags: a b` then
`tags: b c` reports previous tags `{a, b}` and new tags `{c}`. -/
theorem c9_tag_inventory_witness :
    (List.filter isTagsLine [chars "tags: a b\n", chars "x\n", chars "tags: b c\n"] =
      [chars "tags: a b\n"] ++ [chars "tags: b c\n"]) ∧
    tags_report [chars "tags: a b\n", chars "x\n", chars "tags: b c\n"] =
      some ({chars "a", chars "b"}, {chars "c"}) := by
  constructor
  · decide
  · rw [c9_tag_inventory [chars "tags: a b\n", chars "x\n", chars "tags: b c\n"]
      [chars "tags: a b\n"] (chars "tags: b c\n") (by decide)]
    decide

/-- Claim C10: the modelled mutating operations only ever extend the log
file: the update flow leaves the original bytes as a prefix of the resulting
file (also when it raises after appending), and the fall-through command
append only appends; the read paths take the log purely as input. -/
theorem c10_append_only (env : MainEnv) (log : List Nat) (args : List (List Char)) :
    env.log <+: (doMain env).log ∧ log <+: handle_append log args := by
  constructor
  · unfold doMain
    cases hls : last_state env.log with
    | none => exact List.prefix_rfl
    | some ws =>
      show env.log <+: (doMainLast env ws).log
      unfold doMainLast
      dsimp only
      split
      · split <;> exact List.prefix_append _ _
      · split <;> exact List.prefix_rfl
  · unfold handle_append
    exact List.prefix_append _ _

end Logwork
